import Mathlib

/-!
Shallow embedding of src/engine/board.py (chess position <-> tensor codec).

Positions (python-chess boards) are modelled by the structure Board below:
a piece-at-square map over integer square indices (square = rank * 8 + file,
as in python-chess) together with the game-state fields read or written by
this module (turn, the four castling rights, en-passant square, halfmove
clock).  Numpy float32 arrays are modelled by NPArray: explicit shape fields
and a rational-valued cell function; all values produced by the code are
0, 1 or min(halfmoveClock / 100, 1), so rationals represent them exactly.
Out-of-bounds numpy indexing raises IndexError; fallible operations are
therefore embedded in Except NPError, with bounds-checked reads of scalars
(readVal) and whole channel planes (getPlane / setPlane).
-/

inductive PieceType
  | pawn
  | knight
  | bishop
  | rook
  | queen
  | king
  deriving DecidableEq

inductive Color
  | white
  | black
  deriving DecidableEq

structure Piece where
  pieceType : PieceType
  color : Color
  deriving DecidableEq

/-- PIECE_TO_CHANNEL table from board.py. -/
def PIECE_TO_CHANNEL : PieceType → ℕ
  | .pawn => 0
  | .knight => 1
  | .bishop => 2
  | .rook => 3
  | .queen => 4
  | .king => 5

/-- chess.Board: piece placement plus the game-state fields this module reads. -/
structure Board where
  pieceAt : ℕ → Option Piece
  turn : Color
  castleWK : Bool
  castleWQ : Bool
  castleBK : Bool
  castleBQ : Bool
  epSquare : Option ℕ
  halfmoveClock : ℕ

/-- chess.Board(fen=None): empty placement, White to move, no castling rights,
no en-passant square, zero halfmove clock. -/
def Board.empty : Board :=
  { pieceAt := fun _ => none
    turn := .white
    castleWK := false
    castleWQ := false
    castleBK := false
    castleBQ := false
    epSquare := none
    halfmoveClock := 0 }

/-- chess.Board.set_piece_at: overwrite the piece at a square. -/
def Board.set_piece_at (b : Board) (s : ℕ) (p : Piece) : Board :=
  { b with pieceAt := fun s2 => if s2 = s then some p else b.pieceAt s2 }

/-- chess.square_rank(square) = square >> 3. -/
def square_rank (s : ℕ) : ℕ := s / 8

/-- chess.square_file(square) = square & 7. -/
def square_file (s : ℕ) : ℕ := s % 8

/-- chess.square(file_index, rank_index) = rank_index * 8 + file_index. -/
def chess_square (file rank : ℕ) : ℕ := rank * 8 + file

/-- A numpy array of shape (channels, rows, cols) with rational cells.
Cells outside the shape are irrelevant junk; array equality is compared
within the shape. -/
structure NPArray where
  channels : ℕ
  rows : ℕ
  cols : ℕ
  val : ℕ → ℕ → ℕ → ℚ

/-- np.zeros((c, r, f)). -/
def zerosArr (c r f : ℕ) : NPArray := ⟨c, r, f, fun _ _ _ => 0⟩

/-- Scalar store tensor[c, r, f] = q.  board_to_tensor only ever writes with
channel < 12, rank < 8, file < 8, all statically inside its (12,8,8) shape,
so this write is modelled without a bounds check. -/
def NPArray.set (a : NPArray) (c r f : ℕ) (q : ℚ) : NPArray :=
  { a with val := fun c2 r2 f2 => if c2 = c ∧ r2 = r ∧ f2 = f then q else a.val c2 r2 f2 }

/-- Loop body of board_to_tensor: if the square is occupied, set
tensor[channel, rank, file] = 1.0 with channel = PIECE_TO_CHANNEL[type]
(+ 6 for Black). -/
def pieceChannel (p : Piece) : ℕ :=
  PIECE_TO_CHANNEL p.pieceType + (if p.color = Color.black then 6 else 0)

def encStep (b : Board) (t : NPArray) (square : ℕ) : NPArray :=
  match b.pieceAt square with
  | some piece => t.set (pieceChannel piece) (square_rank square) (square_file square) 1
  | none => t

/-- board_to_tensor from board.py: fold the per-square store over
chess.SQUARES = 0..63, starting from np.zeros((12, 8, 8)). -/
def board_to_tensor (b : Board) : NPArray :=
  (List.range 64).foldl (encStep b) (zerosArr 12 8 8)

/-- tensor[c, :, :] = q. -/
def fillPlane (a : NPArray) (c : ℕ) (q : ℚ) : NPArray :=
  { a with val := fun c2 r f => if c2 = c then q else a.val c2 r f }

/-- tensor[c, :, col] = q. -/
def fillColumn (a : NPArray) (c col : ℕ) (q : ℚ) : NPArray :=
  { a with val := fun c2 r f => if c2 = c ∧ f = col then q else a.val c2 r f }

/-- tensor[:12] = src. -/
def assignSlice12 (a src : NPArray) : NPArray :=
  { a with val := fun c r f => if c < 12 then src.val c r f else a.val c r f }

/-- board_to_tensor_extended from board.py. -/
def board_to_tensor_extended (b : Board) : NPArray :=
  let t := assignSlice12 (zerosArr 19 8 8) (board_to_tensor b)
  let t := if b.turn = Color.white then fillPlane t 12 1 else t
  let t := if b.castleWK then fillPlane t 13 1 else t
  let t := if b.castleWQ then fillPlane t 14 1 else t
  let t := if b.castleBK then fillPlane t 15 1 else t
  let t := if b.castleBQ then fillPlane t 16 1 else t
  let t :=
    match b.epSquare with
    | some ep => fillColumn t 17 (square_file ep) 1
    | none => t
  fillPlane t 18 (min ((b.halfmoveClock : ℚ) / 100) 1)

/-- Numpy runtime error raised by out-of-bounds indexing. -/
inductive NPError
  | indexError
  deriving DecidableEq

/-- Scalar read tensor[c, r, f] with numpy bounds checking. -/
def readVal (a : NPArray) (c r f : ℕ) : Except NPError ℚ :=
  if c < a.channels ∧ r < a.rows ∧ f < a.cols then .ok (a.val c r f)
  else .error .indexError

/-- Plane read tensor[c] with numpy bounds checking on the channel axis. -/
def getPlane (a : NPArray) (c : ℕ) : Except NPError (ℕ → ℕ → ℚ) :=
  if c < a.channels then .ok (fun r f => a.val c r f) else .error .indexError

/-- Plane store tensor[c] = p with numpy bounds checking on the channel axis. -/
def setPlane (a : NPArray) (c : ℕ) (p : ℕ → ℕ → ℚ) : Except NPError NPArray :=
  if c < a.channels then
    .ok { a with val := fun c2 r f => if c2 = c then p r f else a.val c2 r f }
  else .error .indexError

/-- np.flip(plane, axis=0) for a plane with the given number of rows. -/
def npFlipRows (rows : ℕ) (p : ℕ → ℕ → ℚ) : ℕ → ℕ → ℚ :=
  fun r f => p (rows - 1 - r) f

/-- channel_to_piece table from tensor_to_board. -/
def channel_to_piece : ℕ → Option Piece
  | 0 => some ⟨.pawn, .white⟩
  | 1 => some ⟨.knight, .white⟩
  | 2 => some ⟨.bishop, .white⟩
  | 3 => some ⟨.rook, .white⟩
  | 4 => some ⟨.queen, .white⟩
  | 5 => some ⟨.king, .white⟩
  | 6 => some ⟨.pawn, .black⟩
  | 7 => some ⟨.knight, .black⟩
  | 8 => some ⟨.bishop, .black⟩
  | 9 => some ⟨.rook, .black⟩
  | 10 => some ⟨.queen, .black⟩
  | 11 => some ⟨.king, .black⟩
  | _ => none

/-- Innermost loop body of tensor_to_board: read tensor[channel, row, col] and,
if it exceeds 0.5 (written mkRat 1 2, the exact rational one half), place the
piece at chess.square(col, row). -/
def decodeCell (t : NPArray) (channel : ℕ) (piece : Piece) (row col : ℕ) (b : Board) :
    Except NPError Board := do
  let v ← readVal t channel row col
  if v > mkRat 1 2 then
    pure (b.set_piece_at (chess_square col row) piece)
  else
    pure b

/-- The two inner loops of tensor_to_board (rows 0..7, cols 0..7) for one channel. -/
def decodeChannel (t : NPArray) (channel : ℕ) (piece : Piece) (b : Board) :
    Except NPError Board :=
  (List.range 8).foldlM (fun b2 row =>
    (List.range 8).foldlM (fun b3 col => decodeCell t channel piece row col b3) b2) b

/-- Outer loop body of tensor_to_board: look up channel_to_piece and run the
row/col loops. -/
def decodeStep (t : NPArray) (b : Board) (channel : ℕ) : Except NPError Board :=
  match channel_to_piece channel with
  | some piece => decodeChannel t channel piece b
  | none => pure b

/-- tensor_to_board from board.py: start from chess.Board(fen=None), loop over
channels 0..11. -/
def tensor_to_board (t : NPArray) : Except NPError Board :=
  (List.range 12).foldlM (decodeStep t) Board.empty

/-- One iteration of the piece-channel loop in flip_board_tensor:
flipped[i] = np.flip(tensor[i + 6], axis=0);
flipped[i + 6] = np.flip(tensor[i], axis=0). -/
def flipStep (t : NPArray) (acc : NPArray) (i : ℕ) : Except NPError NPArray := do
  let p1 ← getPlane t (i + 6)
  let acc2 ← setPlane acc i (npFlipRows t.rows p1)
  let p2 ← getPlane t i
  setPlane acc2 (i + 6) (npFlipRows t.rows p2)

/-- flip_board_tensor from board.py.  Reads happen before the store of the
same source line, matching Python evaluation order. -/
def flip_board_tensor (t : NPArray) : Except NPError NPArray := do
  let flipped := zerosArr t.channels t.rows t.cols
  let flipped ← (List.range 6).foldlM (flipStep t) flipped
  if t.channels > 12 then
    let p12 ← getPlane t 12
    let flipped ← setPlane flipped 12 (fun r f => 1 - p12 r f)
    let p15 ← getPlane t 15
    let flipped ← setPlane flipped 13 p15
    let p16 ← getPlane t 16
    let flipped ← setPlane flipped 14 p16
    let p13 ← getPlane t 13
    let flipped ← setPlane flipped 15 p13
    let p14 ← getPlane t 14
    let flipped ← setPlane flipped 16 p14
    let flipped ←
      if t.channels > 17 then do
        let p17 ← getPlane t 17
        setPlane flipped 17 (npFlipRows t.rows p17)
      else
        pure flipped
    if t.channels > 18 then do
      let p18 ← getPlane t 18
      setPlane flipped 18 p18
    else
      pure flipped
  else
    pure flipped

/-! ### Sample inputs used by witnesses -/

/-- A 12-channel array with two channels active (> 0.5) at cell (3, 4):
channels 2 (White bishop) and 9 (Black rook). -/
def sampleMultiHot : NPArray :=
  ⟨12, 8, 8, fun c r f => if (c = 2 ∨ c = 9) ∧ r = 3 ∧ f = 4 then 1 else 0⟩

/-- An empty board with en-passant target e3 (square 20, file 4). -/
def sampleEpBoard : Board :=
  { Board.empty with epSquare := some 20 }

/-- A 19-channel array that is zero on channels 0-11 but nonzero on the
game-state channels 12-18. -/
def sampleStateArr : NPArray :=
  ⟨19, 8, 8, fun c r f => if 12 ≤ c then (c : ℚ) + r + f else 0⟩

/-- The square s carries a piece whose channel is c. -/
def chanHit (b : Board) (s c : ℕ) : Bool :=
  match b.pieceAt s with
  | some p => decide (pieceChannel p = c)
  | none => false

/-- tensor[c, row, col] > 0.5, the decode activation test. -/
def cellActive (t : NPArray) (c row col : ℕ) : Bool :=
  decide (t.val c row col > mkRat 1 2)

/-- Left-fold semantics of the decode channel loop at one square: run the
channels in order, a later active channel overriding an earlier one. -/
def decodeSem (t : NPArray) (s : ℕ) (acc : Option Piece) (channel : ℕ) : Option Piece :=
  match channel_to_piece channel with
  | some piece =>
    if s < 64 ∧ cellActive t channel (square_rank s) (square_file s) = true then some piece
    else acc
  | none => acc

/-- Equality of every game-state field (everything except piece placement). -/
def sameGameState (b b2 : Board) : Prop :=
  b2.turn = b.turn ∧ b2.castleWK = b.castleWK ∧ b2.castleWQ = b.castleWQ ∧
    b2.castleBK = b.castleBK ∧ b2.castleBQ = b.castleBQ ∧
    b2.epSquare = b.epSquare ∧ b2.halfmoveClock = b.halfmoveClock

/-! ### Basic unfolding lemmas -/

theorem NPArray.val_set (a : NPArray) (c r f c2 r2 f2 : ℕ) (q : ℚ) :
    (a.set c r f q).val c2 r2 f2 =
      if c2 = c ∧ r2 = r ∧ f2 = f then q else a.val c2 r2 f2 := rfl

theorem square_rank_chess_square (file rank : ℕ) (hf : file < 8) :
    square_rank (chess_square file rank) = rank := by
  unfold square_rank chess_square
  omega

theorem square_file_chess_square (file rank : ℕ) (hf : file < 8) :
    square_file (chess_square file rank) = file := by
  unfold square_file chess_square
  omega

/-! ### Characterization of board_to_tensor -/

theorem encStep_val_other (b : Board) (t0 : NPArray) (s0 c r f : ℕ)
    (hs : s0 ≠ chess_square f r) :
    (encStep b t0 s0).val c r f = t0.val c r f := by
  unfold encStep
  cases hp : b.pieceAt s0 with
  | none => rfl
  | some p =>
    rw [NPArray.val_set, if_neg]
    rintro ⟨h1, h2, h3⟩
    apply hs
    unfold square_rank at h2
    unfold square_file at h3
    unfold chess_square
    omega

theorem encStep_shape (b : Board) (t0 : NPArray) (s0 : ℕ) :
    (encStep b t0 s0).channels = t0.channels ∧ (encStep b t0 s0).rows = t0.rows ∧
      (encStep b t0 s0).cols = t0.cols := by
  unfold encStep
  cases b.pieceAt s0 <;> exact ⟨rfl, rfl, rfl⟩

theorem encodeFold_shape (b : Board) (l : List ℕ) : ∀ t0 : NPArray,
    ((l.foldl (encStep b) t0)).channels = t0.channels ∧
      ((l.foldl (encStep b) t0)).rows = t0.rows ∧
      ((l.foldl (encStep b) t0)).cols = t0.cols := by
  induction l with
  | nil => exact fun t0 => ⟨rfl, rfl, rfl⟩
  | cons s0 l ih =>
    intro t0
    rw [List.foldl_cons]
    obtain ⟨h1, h2, h3⟩ := ih (encStep b t0 s0)
    obtain ⟨g1, g2, g3⟩ := encStep_shape b t0 s0
    exact ⟨h1.trans g1, h2.trans g2, h3.trans g3⟩

theorem encodeFold_val (b : Board) (c r f : ℕ) (hf : f < 8) :
    ∀ (l : List ℕ) (t0 : NPArray),
      ((l.foldl (encStep b) t0)).val c r f =
        if chess_square f r ∈ l ∧ chanHit b (chess_square f r) c then 1
        else t0.val c r f := by
  intro l
  induction l with
  | nil => intro t0; simp
  | cons s0 l ih =>
    intro t0
    rw [List.foldl_cons, ih (encStep b t0 s0)]
    by_cases hs : s0 = chess_square f r
    · subst hs
      cases hp : b.pieceAt (chess_square f r) with
      | none =>
        have hhit : chanHit b (chess_square f r) c = false := by
          unfold chanHit; rw [hp]
        have hstep : encStep b t0 (chess_square f r) = t0 := by
          unfold encStep; rw [hp]
        rw [hhit, hstep]
        simp
      | some p =>
        by_cases hc : pieceChannel p = c
        · have hhit : chanHit b (chess_square f r) c = true := by
            unfold chanHit; rw [hp]; simp [hc]
          have hv : (encStep b t0 (chess_square f r)).val c r f = 1 := by
            unfold encStep
            rw [hp, NPArray.val_set, if_pos ⟨hc.symm, (square_rank_chess_square f r hf).symm,
              (square_file_chess_square f r hf).symm⟩]
          rw [hhit, hv]
          simp
        · have hhit : chanHit b (chess_square f r) c = false := by
            unfold chanHit; rw [hp]; simp [hc]
          have hv : (encStep b t0 (chess_square f r)).val c r f = t0.val c r f := by
            unfold encStep
            rw [hp, NPArray.val_set, if_neg (fun h => hc h.1.symm)]
          rw [hhit, hv]
          simp
    · rw [encStep_val_other b t0 s0 c r f hs]
      by_cases hcond : chess_square f r ∈ l ∧ chanHit b (chess_square f r) c
      · rw [if_pos hcond, if_pos ⟨List.mem_cons_of_mem _ hcond.1, hcond.2⟩]
      · rw [if_neg hcond, if_neg]
        rintro ⟨hmem, hhit⟩
        rcases List.mem_cons.mp hmem with h | h
        · exact hs h.symm
        · exact hcond ⟨h, hhit⟩

theorem board_to_tensor_shape (b : Board) :
    (board_to_tensor b).channels = 12 ∧ (board_to_tensor b).rows = 8 ∧
      (board_to_tensor b).cols = 8 :=
  encodeFold_shape b (List.range 64) (zerosArr 12 8 8)

/-- Pointwise value of board_to_tensor: the indicator of a piece with channel
c standing on square rank * 8 + file. -/
theorem board_to_tensor_val (b : Board) (c r f : ℕ) (hr : r < 8) (hf : f < 8) :
    (board_to_tensor b).val c r f =
      if chanHit b (chess_square f r) c then 1 else 0 := by
  unfold board_to_tensor
  rw [encodeFold_val b c r f hf (List.range 64) (zerosArr 12 8 8)]
  have hmem : chess_square f r ∈ List.range 64 := by
    rw [List.mem_range]
    unfold chess_square
    omega
  by_cases hhit : chanHit b (chess_square f r) c
  · rw [if_pos ⟨hmem, hhit⟩, if_pos hhit]
  · rw [if_neg (fun h => hhit h.2), if_neg hhit]
    rfl

/-! ### Except helpers -/

theorem okBind {α β : Type} (a : α) (f : α → Except NPError β) :
    (Except.ok a >>= f) = f a := rfl

theorem errBind {α β : Type} (e : NPError) (f : α → Except NPError β) :
    ((Except.error e : Except NPError α) >>= f) = .error e := rfl

/-! ### Characterization of tensor_to_board -/

theorem set_piece_at_pieceAt (b : Board) (sq s : ℕ) (p : Piece) :
    (b.set_piece_at sq p).pieceAt s = if s = sq then some p else b.pieceAt s := rfl

theorem decodeCell_ok (t : NPArray) (c : ℕ) (piece : Piece) (row col : ℕ) (b : Board)
    (hc : c < t.channels) (hr : row < t.rows) (hf : col < t.cols) :
    decodeCell t c piece row col b =
      .ok (if cellActive t c row col then b.set_piece_at (chess_square col row) piece
           else b) := by
  unfold decodeCell readVal cellActive
  rw [if_pos ⟨hc, hr, hf⟩, okBind]
  by_cases h : t.val c row col > mkRat 1 2
  · rw [if_pos h, if_pos (by simp [h])]
    rfl
  · rw [if_neg h, if_neg (by simp [h])]
    rfl

theorem decodeColFold (t : NPArray) (c : ℕ) (piece : Piece) (row : ℕ)
    (hc : c < t.channels) (hrow : row < t.rows) (hcols : 8 ≤ t.cols) :
    ∀ (l : List ℕ), (∀ x ∈ l, x < 8) → ∀ b : Board,
    ∃ b2, (l.foldlM (fun b3 col => decodeCell t c piece row col b3) b) = .ok b2 ∧
      ∀ s, b2.pieceAt s =
        if ∃ col ∈ l, s = chess_square col row ∧ cellActive t c row col then some piece
        else b.pieceAt s := by
  intro l
  induction l with
  | nil =>
    intro _ b
    exact ⟨b, rfl, fun s => by simp⟩
  | cons col0 l ih =>
    intro hl b
    have hcol0 : col0 < 8 := hl col0 (List.mem_cons_self col0 l)
    obtain ⟨b2, hfold, hchar⟩ :=
      ih (fun x hx => hl x (List.mem_cons_of_mem col0 hx))
        (if cellActive t c row col0 then b.set_piece_at (chess_square col0 row) piece else b)
    refine ⟨b2, ?_, ?_⟩
    · rw [List.foldlM_cons,
        decodeCell_ok t c piece row col0 b hc hrow (lt_of_lt_of_le hcol0 hcols), okBind,
        hfold]
    · intro s
      rw [hchar s]
      by_cases h1 : ∃ col ∈ l, s = chess_square col row ∧ cellActive t c row col = true
      · obtain ⟨col, hm, hrest⟩ := h1
        have hx1 : ∃ col ∈ l, s = chess_square col row ∧ cellActive t c row col = true :=
          ⟨col, hm, hrest⟩
        have hx2 : ∃ col ∈ col0 :: l, s = chess_square col row ∧ cellActive t c row col = true :=
          ⟨col, List.mem_cons_of_mem col0 hm, hrest⟩
        rw [if_pos hx1, if_pos hx2]
      · rw [if_neg h1]
        by_cases h0 : s = chess_square col0 row ∧ cellActive t c row col0 = true
        · have hx2 : ∃ col ∈ col0 :: l, s = chess_square col row ∧ cellActive t c row col = true :=
            ⟨col0, List.mem_cons_self col0 l, h0⟩
          rw [if_pos h0.2, set_piece_at_pieceAt, if_pos h0.1, if_pos hx2]
        · have hx2 : ¬∃ col ∈ col0 :: l, s = chess_square col row ∧ cellActive t c row col = true := by
            rintro ⟨col, hm, hrest⟩
            rcases List.mem_cons.mp hm with h | h
            · exact h0 (h ▸ hrest)
            · exact h1 ⟨col, h, hrest⟩
          rw [if_neg hx2]
          by_cases hact : cellActive t c row col0 = true
          · rw [if_pos hact, set_piece_at_pieceAt, if_neg (fun hh => h0 ⟨hh, hact⟩)]
          · rw [if_neg hact]

theorem decodeRowFold (t : NPArray) (c : ℕ) (piece : Piece)
    (hc : c < t.channels) (hrows : 8 ≤ t.rows) (hcols : 8 ≤ t.cols) :
    ∀ (l : List ℕ), (∀ x ∈ l, x < 8) → ∀ b : Board,
    ∃ b2, (l.foldlM (fun b2 row =>
        (List.range 8).foldlM (fun b3 col => decodeCell t c piece row col b3) b2) b) = .ok b2 ∧
      ∀ s, b2.pieceAt s =
        if ∃ row ∈ l, ∃ col ∈ List.range 8,
            s = chess_square col row ∧ cellActive t c row col = true
        then some piece else b.pieceAt s := by
  intro l
  induction l with
  | nil =>
    intro _ b
    exact ⟨b, rfl, fun s => by simp⟩
  | cons row0 l ih =>
    intro hl b
    have hrow0 : row0 < t.rows :=
      lt_of_lt_of_le (hl row0 (List.mem_cons_self row0 l)) hrows
    obtain ⟨b1, hb1, hchar1⟩ := decodeColFold t c piece row0 hc hrow0 hcols
      (List.range 8) (fun x hx => List.mem_range.mp hx) b
    obtain ⟨b2, hfold, hchar⟩ := ih (fun x hx => hl x (List.mem_cons_of_mem row0 hx)) b1
    refine ⟨b2, ?_, ?_⟩
    · rw [List.foldlM_cons, hb1, okBind, hfold]
    · intro s
      rw [hchar s]
      by_cases h1 : ∃ row ∈ l, ∃ col ∈ List.range 8,
          s = chess_square col row ∧ cellActive t c row col = true
      · obtain ⟨row, hm, hrest⟩ := h1
        have hx1 : ∃ row ∈ l, ∃ col ∈ List.range 8,
            s = chess_square col row ∧ cellActive t c row col = true := ⟨row, hm, hrest⟩
        have hx2 : ∃ row ∈ row0 :: l, ∃ col ∈ List.range 8,
            s = chess_square col row ∧ cellActive t c row col = true :=
          ⟨row, List.mem_cons_of_mem row0 hm, hrest⟩
        rw [if_pos hx1, if_pos hx2]
      · rw [if_neg h1, hchar1 s]
        by_cases h0 : ∃ col ∈ List.range 8,
            s = chess_square col row0 ∧ cellActive t c row0 col = true
        · have hx2 : ∃ row ∈ row0 :: l, ∃ col ∈ List.range 8,
              s = chess_square col row ∧ cellActive t c row col = true :=
            ⟨row0, List.mem_cons_self row0 l, h0⟩
          rw [if_pos h0, if_pos hx2]
        · have hx2 : ¬∃ row ∈ row0 :: l, ∃ col ∈ List.range 8,
              s = chess_square col row ∧ cellActive t c row col = true := by
            rintro ⟨row, hm, hrest⟩
            rcases List.mem_cons.mp hm with h | h
            · exact h0 (h ▸ hrest)
            · exact h1 ⟨row, h, hrest⟩
          rw [if_neg h0, if_neg hx2]

theorem decodeChannel_ok (t : NPArray) (c : ℕ) (piece : Piece)
    (hc : c < t.channels) (hrows : 8 ≤ t.rows) (hcols : 8 ≤ t.cols) (b : Board) :
    ∃ b2, decodeChannel t c piece b = .ok b2 ∧
      ∀ s, b2.pieceAt s =
        if s < 64 ∧ cellActive t c (square_rank s) (square_file s) = true then some piece
        else b.pieceAt s := by
  obtain ⟨b2, hfold, hchar⟩ := decodeRowFold t c piece hc hrows hcols
    (List.range 8) (fun x hx => List.mem_range.mp hx) b
  refine ⟨b2, hfold, ?_⟩
  intro s
  rw [hchar s]
  by_cases h2 : s < 64 ∧ cellActive t c (square_rank s) (square_file s) = true
  · have hx : ∃ row ∈ List.range 8, ∃ col ∈ List.range 8,
        s = chess_square col row ∧ cellActive t c row col = true := by
      refine ⟨square_rank s, ?_, square_file s, ?_, ?_, h2.2⟩
      · rw [List.mem_range]; unfold square_rank; omega
      · rw [List.mem_range]; unfold square_file; omega
      · unfold chess_square square_rank square_file; omega
    rw [if_pos hx, if_pos h2]
  · have hx : ¬∃ row ∈ List.range 8, ∃ col ∈ List.range 8,
        s = chess_square col row ∧ cellActive t c row col = true := by
      rintro ⟨row, hrm, col, hcm, hs, hact⟩
      rw [List.mem_range] at hrm hcm
      subst hs
      apply h2
      refine ⟨by unfold chess_square; omega, ?_⟩
      rw [square_rank_chess_square col row hcm, square_file_chess_square col row hcm]
      exact hact
    rw [if_neg hx, if_neg h2]

theorem decodeChanFold (t : NPArray) (hrows : 8 ≤ t.rows) (hcols : 8 ≤ t.cols) :
    ∀ (l : List ℕ), (∀ x ∈ l, x < t.channels) → ∀ b : Board,
    ∃ B, (l.foldlM (decodeStep t) b) = .ok B ∧
      ∀ s, B.pieceAt s = l.foldl (decodeSem t s) (b.pieceAt s) := by
  intro l
  induction l with
  | nil =>
    intro _ b
    exact ⟨b, rfl, fun s => rfl⟩
  | cons ch l ih =>
    intro hl b
    have hch : ch < t.channels := hl ch (List.mem_cons_self ch l)
    cases hcp : channel_to_piece ch with
    | none =>
      obtain ⟨B, hfold, hchar⟩ := ih (fun x hx => hl x (List.mem_cons_of_mem ch hx)) b
      refine ⟨B, ?_, ?_⟩
      · rw [List.foldlM_cons]
        have hstep : decodeStep t b ch = .ok b := by unfold decodeStep; rw [hcp]; rfl
        rw [hstep, okBind, hfold]
      · intro s
        rw [hchar s, List.foldl_cons]
        have hsem : decodeSem t s (b.pieceAt s) ch = b.pieceAt s := by
          unfold decodeSem; rw [hcp]
        rw [hsem]
    | some piece =>
      obtain ⟨b1, hb1, hchar1⟩ := decodeChannel_ok t ch piece hch hrows hcols b
      obtain ⟨B, hfold, hchar⟩ := ih (fun x hx => hl x (List.mem_cons_of_mem ch hx)) b1
      refine ⟨B, ?_, ?_⟩
      · rw [List.foldlM_cons]
        have hstep : decodeStep t b ch = decodeChannel t ch piece b := by
          unfold decodeStep; rw [hcp]
        rw [hstep, hb1, okBind, hfold]
      · intro s
        rw [hchar s, List.foldl_cons]
        have hsem : decodeSem t s (b.pieceAt s) ch = b1.pieceAt s := by
          unfold decodeSem
          rw [hcp]
          exact (hchar1 s).symm
        rw [hsem]

/-- Full success characterization of tensor_to_board on arrays with at least
12 channels and at least 8 rows and columns. -/
theorem tensor_to_board_char (t : NPArray) (hch : 12 ≤ t.channels)
    (hrows : 8 ≤ t.rows) (hcols : 8 ≤ t.cols) :
    ∃ B, tensor_to_board t = .ok B ∧
      ∀ s, B.pieceAt s = (List.range 12).foldl (decodeSem t s) none := by
  obtain ⟨B, hfold, hchar⟩ := decodeChanFold t hrows hcols (List.range 12)
    (fun x hx => lt_of_lt_of_le (List.mem_range.mp hx) hch) Board.empty
  exact ⟨B, hfold, fun s => hchar s⟩

/-! ### tensor_to_board never touches game state -/

theorem sameGameState_refl (b : Board) : sameGameState b b :=
  ⟨rfl, rfl, rfl, rfl, rfl, rfl, rfl⟩

theorem sameGameState_trans {a b c : Board} (h1 : sameGameState a b)
    (h2 : sameGameState b c) : sameGameState a c := by
  obtain ⟨x1, x2, x3, x4, x5, x6, x7⟩ := h1
  obtain ⟨y1, y2, y3, y4, y5, y6, y7⟩ := h2
  exact ⟨y1.trans x1, y2.trans x2, y3.trans x3, y4.trans x4, y5.trans x5,
    y6.trans x6, y7.trans x7⟩

theorem decodeCell_state (t : NPArray) (c : ℕ) (piece : Piece) (row col : ℕ)
    (b b2 : Board) (h : decodeCell t c piece row col b = .ok b2) :
    sameGameState b b2 := by
  unfold decodeCell at h
  cases hv : readVal t c row col with
  | error e =>
    rw [hv, errBind] at h
    exact Except.noConfusion h
  | ok v =>
    rw [hv, okBind] at h
    by_cases hgt : v > mkRat 1 2
    · rw [if_pos hgt] at h
      have h2 : Except.ok (b.set_piece_at (chess_square col row) piece) = Except.ok b2 := h
      rw [← Except.ok.inj h2]
      exact ⟨rfl, rfl, rfl, rfl, rfl, rfl, rfl⟩
    · rw [if_neg hgt] at h
      have h2 : Except.ok b = Except.ok b2 := h
      rw [← Except.ok.inj h2]
      exact sameGameState_refl b

theorem foldlM_state (step : Board → ℕ → Except NPError Board)
    (hstep : ∀ b x b2, step b x = .ok b2 → sameGameState b b2) :
    ∀ (l : List ℕ) (b B : Board), l.foldlM step b = .ok B → sameGameState b B := by
  intro l
  induction l with
  | nil =>
    intro b B h
    rw [List.foldlM_nil] at h
    have h2 : Except.ok b = Except.ok B := h
    rw [← Except.ok.inj h2]
    exact sameGameState_refl b
  | cons x l ih =>
    intro b B h
    rw [List.foldlM_cons] at h
    cases hx : step b x with
    | error e =>
      rw [hx, errBind] at h
      exact Except.noConfusion h
    | ok b1 =>
      rw [hx, okBind] at h
      exact sameGameState_trans (hstep b x b1 hx) (ih b1 B h)

theorem tensor_to_board_state (t : NPArray) (B : Board)
    (h : tensor_to_board t = .ok B) : sameGameState Board.empty B := by
  refine foldlM_state (decodeStep t) ?_ (List.range 12) Board.empty B h
  intro b ch b2 hstep
  unfold decodeStep at hstep
  cases hcp : channel_to_piece ch with
  | none =>
    rw [hcp] at hstep
    have h2 : Except.ok b = Except.ok b2 := hstep
    rw [← Except.ok.inj h2]
    exact sameGameState_refl b
  | some piece =>
    rw [hcp] at hstep
    unfold decodeChannel at hstep
    refine foldlM_state _ ?_ _ _ _ hstep
    intro b3 row b4 hrow
    refine foldlM_state _ ?_ _ _ _ hrow
    intro b5 col b6 hcell
    exact decodeCell_state t ch piece row col b5 b6 hcell

/-! ### Evaluating the decode fold semantics -/

/-- If no channel in the list is active at square s, the decode fold leaves the
accumulator unchanged. -/
theorem decodeSem_foldl_const (t : NPArray) (s : ℕ) :
    ∀ l : List ℕ,
      (∀ c ∈ l, ¬(s < 64 ∧ cellActive t c (square_rank s) (square_file s) = true)) →
      ∀ acc, l.foldl (decodeSem t s) acc = acc := by
  intro l
  induction l with
  | nil => intro _ acc; rfl
  | cons c l ih =>
    intro hl acc
    rw [List.foldl_cons]
    have hstep : decodeSem t s acc c = acc := by
      unfold decodeSem
      cases hcp : channel_to_piece c with
      | none => rfl
      | some piece =>
        show (if s < 64 ∧ cellActive t c (square_rank s) (square_file s) = true
              then some piece else acc) = acc
        rw [if_neg (hl c (List.mem_cons_self c l))]
    rw [hstep]
    exact ih (fun x hx => hl x (List.mem_cons_of_mem c hx)) acc

/-- If channel c is active at square s and no later channel below n is active,
the decode fold over range n returns the piece of channel c, whatever came before. -/
theorem decodeSem_foldl_last (t : NPArray) (s : ℕ) (c : ℕ) (piece : Piece)
    (hcp : channel_to_piece c = some piece) (hs : s < 64)
    (hact : cellActive t c (square_rank s) (square_file s) = true)
    (hmax : ∀ c2, c < c2 → c2 < 12 →
      cellActive t c2 (square_rank s) (square_file s) = false) :
    ∀ acc n, c < n → n ≤ 12 → (List.range n).foldl (decodeSem t s) acc = some piece := by
  intro acc n
  induction n with
  | zero => intro h _; exact absurd h (Nat.not_lt_zero c)
  | succ n ih =>
    intro hcn hn12
    rw [List.range_succ, List.foldl_append, List.foldl_cons, List.foldl_nil]
    by_cases hceq : c = n
    · subst hceq
      have hsem : ∀ acc2 : Option Piece, decodeSem t s acc2 c = some piece := by
        intro acc2
        unfold decodeSem
        rw [hcp]
        show (if s < 64 ∧ cellActive t c (square_rank s) (square_file s) = true
              then some piece else acc2) = some piece
        rw [if_pos ⟨hs, hact⟩]
      exact hsem _
    · have hlt : c < n := by omega
      have hstep : ∀ acc2 : Option Piece, decodeSem t s acc2 n = acc2 := by
        intro acc2
        unfold decodeSem
        cases hcp2 : channel_to_piece n with
        | none => rfl
        | some p2 =>
          show (if s < 64 ∧ cellActive t n (square_rank s) (square_file s) = true
                then some p2 else acc2) = acc2
          rw [if_neg ?hno]
          case hno =>
            rintro ⟨h64, hacttrue⟩
            rw [hmax n hlt (by omega)] at hacttrue
            exact Bool.noConfusion hacttrue
      rw [hstep, ih hlt (by omega)]

/-- The decode fold only looks at channels below 12 and cells below (8, 8). -/
theorem decodeSem_foldl_congr (x y : NPArray) (s : ℕ)
    (hagree : ∀ c, c < 12 → ∀ r, r < 8 → ∀ f, f < 8 → x.val c r f = y.val c r f) :
    ∀ l : List ℕ, (∀ c ∈ l, c < 12) →
      ∀ acc, l.foldl (decodeSem x s) acc = l.foldl (decodeSem y s) acc := by
  intro l
  induction l with
  | nil => intro _ acc; rfl
  | cons c l ih =>
    intro hl acc
    rw [List.foldl_cons, List.foldl_cons]
    have hc : c < 12 := hl c (List.mem_cons_self c l)
    have hstep : decodeSem x s acc c = decodeSem y s acc c := by
      unfold decodeSem
      cases hcp : channel_to_piece c with
      | none => rfl
      | some piece =>
        by_cases h64 : s < 64
        · have hcell : cellActive x c (square_rank s) (square_file s) =
              cellActive y c (square_rank s) (square_file s) := by
            unfold cellActive
            rw [hagree c hc (square_rank s) (by unfold square_rank; omega)
              (square_file s) (by unfold square_file; omega)]
          rw [hcell]
        · show (if s < 64 ∧ cellActive x c (square_rank s) (square_file s) = true
                then some piece else acc) =
            (if s < 64 ∧ cellActive y c (square_rank s) (square_file s) = true
             then some piece else acc)
          rw [if_neg (fun h => h64 h.1), if_neg (fun h => h64 h.1)]
    rw [hstep]
    exact ih (fun z hz => hl z (List.mem_cons_of_mem c hz)) (decodeSem y s acc c)

/-! ### Bridging encode and decode -/

theorem cellActive_encode (b : Board) (c r f : ℕ) (hr : r < 8) (hf : f < 8) :
    cellActive (board_to_tensor b) c r f = chanHit b (chess_square f r) c := by
  unfold cellActive
  rw [board_to_tensor_val b c r f hr hf]
  cases h : chanHit b (chess_square f r) c with
  | false => decide
  | true => decide

theorem channel_to_piece_pieceChannel (p : Piece) :
    channel_to_piece (pieceChannel p) = some p := by
  obtain ⟨pt, pc⟩ := p
  cases pt <;> cases pc <;> rfl

theorem pieceChannel_lt (p : Piece) : pieceChannel p < 12 := by
  obtain ⟨pt, pc⟩ := p
  cases pt <;> cases pc <;> decide

/-! ### Claim theorems -/

/-- Claim C1: for every position, decoding the basic encoding reproduces the
piece-at-square mapping exactly on all 64 squares (positions in this model only
contain the six standard piece types, so the restriction in the claim is automatic). -/
theorem decode_encode_roundtrip (b : Board) :
    ∃ B, tensor_to_board (board_to_tensor b) = .ok B ∧
      ∀ s, s < 64 → B.pieceAt s = b.pieceAt s := by
  obtain ⟨hc12, hr8, hf8⟩ := board_to_tensor_shape b
  obtain ⟨B, hok, hchar⟩ := tensor_to_board_char (board_to_tensor b)
    (by omega) (by omega) (by omega)
  refine ⟨B, hok, ?_⟩
  intro s hs
  rw [hchar s]
  have hrank : square_rank s < 8 := by unfold square_rank; omega
  have hfile : square_file s < 8 := by unfold square_file; omega
  have hsq : chess_square (square_file s) (square_rank s) = s := by
    unfold chess_square square_rank square_file
    omega
  cases hp : b.pieceAt s with
  | none =>
    apply decodeSem_foldl_const
    intro c _
    rintro ⟨h64, hact⟩
    rw [cellActive_encode b c (square_rank s) (square_file s) hrank hfile, hsq] at hact
    unfold chanHit at hact
    rw [hp] at hact
    exact Bool.noConfusion hact
  | some p =>
    refine decodeSem_foldl_last (board_to_tensor b) s (pieceChannel p) p
      (channel_to_piece_pieceChannel p) hs ?_ ?_ none 12 (pieceChannel_lt p) le_rfl
    · rw [cellActive_encode b (pieceChannel p) (square_rank s) (square_file s) hrank hfile,
        hsq]
      unfold chanHit
      rw [hp]
      simp
    · intro c2 hgt hlt
      rw [cellActive_encode b c2 (square_rank s) (square_file s) hrank hfile, hsq]
      unfold chanHit
      rw [hp]
      simp only [decide_eq_false_iff_not]
      omega

/-- Claim C10: whatever the input array, a position returned by
tensor_to_board carries the fixed default game state of chess.Board(fen=None):
White to move, no castling rights, no en-passant square, zero halfmove clock. -/
theorem decode_default_game_state (t : NPArray) (B : Board)
    (h : tensor_to_board t = .ok B) :
    B.turn = Color.white ∧ B.castleWK = false ∧ B.castleWQ = false ∧
      B.castleBK = false ∧ B.castleBQ = false ∧ B.epSquare = none ∧
      B.halfmoveClock = 0 := by
  obtain ⟨h1, h2, h3, h4, h5, h6, h7⟩ := tensor_to_board_state t B h
  exact ⟨h1, h2, h3, h4, h5, h6, h7⟩

/-- Claim C5: on a 12-channel array with two or more channels active (> 0.5)
at the same cell, tensor_to_board raises no error and the highest-indexed
active channel determines the piece placed at that square. -/
theorem decode_multihot_last_wins (t : NPArray)
    (hch : t.channels = 12) (hrows : t.rows = 8) (hcols : t.cols = 8)
    (r f : ℕ) (hr : r < 8) (hf : f < 8)
    (c c2 : ℕ) (hc : c < 12) (hc2 : c2 < 12) (hne : c2 ≠ c)
    (hact : cellActive t c r f = true) (hact2 : cellActive t c2 r f = true)
    (hmax : ∀ c3, c3 < 12 → cellActive t c3 r f = true → c3 ≤ c) :
    ∃ B, tensor_to_board t = .ok B ∧
      B.pieceAt (chess_square f r) = channel_to_piece c := by
  obtain ⟨B, hok, hchar⟩ := tensor_to_board_char t (by omega) (by omega) (by omega)
  refine ⟨B, hok, ?_⟩
  rw [hchar (chess_square f r)]
  have hrank := square_rank_chess_square f r hf
  have hfile := square_file_chess_square f r hf
  have hs64 : chess_square f r < 64 := by unfold chess_square; omega
  have hsome : ∃ piece, channel_to_piece c = some piece := by
    interval_cases c <;> exact ⟨_, rfl⟩
  obtain ⟨piece, hcp⟩ := hsome
  rw [hcp]
  refine decodeSem_foldl_last t (chess_square f r) c piece hcp hs64 ?_ ?_ none 12 hc le_rfl
  · rw [hrank, hfile]
    exact hact
  · intro c3 hgt hlt
    cases hcand : cellActive t c3 (square_rank (chess_square f r))
        (square_file (chess_square f r)) with
    | false => rfl
    | true =>
      rw [hrank, hfile] at hcand
      exact absurd (hmax c3 hlt hcand) (by omega)

attribute [ext] Board

/-- Claim C8: tensor_to_board reads only channels 0-11; two 19-channel arrays
agreeing there decode to identical positions (piece placement and game state),
whatever stands on channels 12-18. -/
theorem decode_ignores_state_channels (x y : NPArray)
    (hxch : x.channels = 19) (hxr : x.rows = 8) (hxc : x.cols = 8)
    (hych : y.channels = 19) (hyr : y.rows = 8) (hyc : y.cols = 8)
    (hagree : ∀ c, c < 12 → ∀ r, r < 8 → ∀ f, f < 8 → x.val c r f = y.val c r f) :
    tensor_to_board x = tensor_to_board y := by
  obtain ⟨B1, hok1, hchar1⟩ := tensor_to_board_char x (by omega) (by omega) (by omega)
  obtain ⟨B2, hok2, hchar2⟩ := tensor_to_board_char y (by omega) (by omega) (by omega)
  have hst1 := tensor_to_board_state x B1 hok1
  have hst2 := tensor_to_board_state y B2 hok2
  rw [hok1, hok2]
  have hB : B1 = B2 := by
    refine Board.ext ?_ ?_ ?_ ?_ ?_ ?_ ?_ ?_
    · funext s
      rw [hchar1 s, hchar2 s]
      exact decodeSem_foldl_congr x y s hagree (List.range 12)
        (fun c hcm => List.mem_range.mp hcm) none
    · exact hst1.1.trans hst2.1.symm
    · exact hst1.2.1.trans hst2.2.1.symm
    · exact hst1.2.2.1.trans hst2.2.2.1.symm
    · exact hst1.2.2.2.1.trans hst2.2.2.2.1.symm
    · exact hst1.2.2.2.2.1.trans hst2.2.2.2.2.1.symm
    · exact hst1.2.2.2.2.2.1.trans hst2.2.2.2.2.2.1.symm
    · exact hst1.2.2.2.2.2.2.trans hst2.2.2.2.2.2.2.symm
  rw [hB]

/-- Claim C3: the basic encoding has shape (12, 8, 8), every cell is 0 or 1,
and at every (rank, file) cell at most one of the 12 channels holds a 1
(float32 values are represented exactly as rationals in this model). -/
theorem encode_basic_shape_onehot (b : Board) :
    (board_to_tensor b).channels = 12 ∧ (board_to_tensor b).rows = 8 ∧
      (board_to_tensor b).cols = 8 ∧
      (∀ c, c < 12 → ∀ r, r < 8 → ∀ f, f < 8 →
        (board_to_tensor b).val c r f = 0 ∨ (board_to_tensor b).val c r f = 1) ∧
      (∀ r, r < 8 → ∀ f, f < 8 → ∀ c1, c1 < 12 → ∀ c2, c2 < 12 →
        (board_to_tensor b).val c1 r f = 1 → (board_to_tensor b).val c2 r f = 1 →
        c1 = c2) := by
  obtain ⟨h1, h2, h3⟩ := board_to_tensor_shape b
  refine ⟨h1, h2, h3, ?_, ?_⟩
  · intro c hc r hr f hf
    rw [board_to_tensor_val b c r f hr hf]
    by_cases h : chanHit b (chess_square f r) c = true
    · right
      rw [if_pos h]
    · left
      rw [if_neg h]
  · intro r hr f hf c1 hc1 c2 hc2 hv1 hv2
    rw [board_to_tensor_val b c1 r f hr hf] at hv1
    rw [board_to_tensor_val b c2 r f hr hf] at hv2
    have g1 : chanHit b (chess_square f r) c1 = true := by
      by_contra hcon
      rw [if_neg hcon] at hv1
      exact absurd hv1 (by norm_num)
    have g2 : chanHit b (chess_square f r) c2 = true := by
      by_contra hcon
      rw [if_neg hcon] at hv2
      exact absurd hv2 (by norm_num)
    unfold chanHit at g1 g2
    cases hp : b.pieceAt (chess_square f r) with
    | none =>
      rw [hp] at g1
      exact Bool.noConfusion g1
    | some p =>
      rw [hp] at g1 g2
      have e1 : pieceChannel p = c1 := of_decide_eq_true g1
      have e2 : pieceChannel p = c2 := of_decide_eq_true g2
      omega

/-- Claim C2: flip_board_tensor is an involution on valid 12- and 19-channel
8 x 8 arrays: flipping twice gives back an array of the same shape equal to
the original at every in-shape cell, exactly (piece channels via double
color-swap and rank-mirror, channel 12 via 1 - (1 - v), 13<->15 and 14<->16
via double swap, 17 via double rank-mirror, 18 via identity; no binariness
of the flag channels is even needed, as all these maps are self-inverse on
arbitrary rational cells). -/
theorem flip_involution (x : NPArray) (hch : x.channels = 12 ∨ x.channels = 19)
    (hrows : x.rows = 8) (hcols : x.cols = 8) :
    ∃ y z, flip_board_tensor x = .ok y ∧ flip_board_tensor y = .ok z ∧
      z.channels = x.channels ∧ z.rows = x.rows ∧ z.cols = x.cols ∧
      ∀ c, c < x.channels → ∀ r, r < 8 → ∀ f, f < 8 → z.val c r f = x.val c r f := by
  obtain ⟨ch, rows, cols, v⟩ := x
  have hr8 : rows = 8 := hrows
  have hc8 : cols = 8 := hcols
  subst hr8
  subst hc8
  rcases hch with h | h
  · have h12 : ch = 12 := h
    subst h12
    refine ⟨_, _, rfl, rfl, rfl, rfl, rfl, ?_⟩
    intro c hc r hr f hf
    have hc2 : c < 12 := hc
    clear hc
    have hsub : 8 - 1 - (8 - 1 - r) = r := by omega
    interval_cases c <;> exact congrArg (fun k => v _ k f) hsub
  · have h19 : ch = 19 := h
    subst h19
    refine ⟨_, _, rfl, rfl, rfl, rfl, rfl, ?_⟩
    intro c hc r hr f hf
    have hc2 : c < 19 := hc
    clear hc
    have hsub : 8 - 1 - (8 - 1 - r) = r := by omega
    interval_cases c <;>
      first
        | rfl
        | exact congrArg (fun k => v _ k f) hsub
        | (show (1:ℚ) - (1 - v 12 r f) = v 12 r f
           ring)

/-- Claim C4: on a 19-channel 8 x 8 array, flip_board_tensor maps the extended
channels as: output 12 = 1 - input 12 per cell; output 13 = input 15 and
output 15 = input 13, output 14 = input 16 and output 16 = input 14, values
copied unchanged with no rank mirror; output 17 = input 17 rank-mirrored with
no swap; output 18 = input 18 unchanged. -/
theorem flip_extended_channel_map (x : NPArray) (hch : x.channels = 19)
    (hrows : x.rows = 8) (hcols : x.cols = 8) :
    ∃ y, flip_board_tensor x = .ok y ∧
      ∀ r, r < 8 → ∀ f, f < 8 →
        (y.val 12 r f = 1 - x.val 12 r f) ∧
        (y.val 13 r f = x.val 15 r f) ∧ (y.val 15 r f = x.val 13 r f) ∧
        (y.val 14 r f = x.val 16 r f) ∧ (y.val 16 r f = x.val 14 r f) ∧
        (y.val 17 r f = x.val 17 (7 - r) f) ∧
        (y.val 18 r f = x.val 18 r f) := by
  obtain ⟨ch, rows, cols, v⟩ := x
  have h1 : ch = 19 := hch
  have h2 : rows = 8 := hrows
  have h3 : cols = 8 := hcols
  subst h1
  subst h2
  subst h3
  refine ⟨_, rfl, ?_⟩
  intro r hr f hf
  exact ⟨rfl, rfl, rfl, rfl, rfl, rfl, rfl⟩

/-- Claim C9: on any array with between 13 and 16 channels the extended
branch of flip_board_tensor is taken (shape[0] > 12) and the castling-swap
assignments index past the channel axis, so flip raises an out-of-bounds
IndexError instead of returning (and instead of an InvalidShape condition). -/
theorem flip_channels_13_16_index_error (t : NPArray)
    (h13 : 13 ≤ t.channels) (h16 : t.channels ≤ 16) :
    flip_board_tensor t = .error .indexError := by
  obtain ⟨ch, rows, cols, v⟩ := t
  have h13a : 13 ≤ ch := h13
  have h16a : ch ≤ 16 := h16
  clear h13 h16
  interval_cases ch <;> rfl

/-- Claim C6 (code bug): tensor_to_board performs no shape validation at all.
A 13-channel 8 x 8 array, whose channel count lies outside {12, 19}, is
accepted without any error: the extra channel is silently ignored and an
empty default board is returned, where the claim requires an InvalidShape
failure. -/
theorem decode_accepts_13_channels :
    tensor_to_board (zerosArr 13 8 8) = .ok Board.empty := rfl

/-! ### Extended encoding, channel 17 -/

theorem fillPlane_val_other (t : NPArray) (c : ℕ) (q : ℚ) (c2 r f : ℕ)
    (h : c2 ≠ c) : (fillPlane t c q).val c2 r f = t.val c2 r f := by
  unfold fillPlane
  exact if_neg h

theorem ite_fillPlane_val_other (cond : Prop) [Decidable cond] (t : NPArray)
    (c : ℕ) (q : ℚ) (c2 r f : ℕ) (h : c2 ≠ c) :
    (if cond then fillPlane t c q else t).val c2 r f = t.val c2 r f := by
  by_cases hcond : cond
  · rw [if_pos hcond]
    exact fillPlane_val_other t c q c2 r f h
  · rw [if_neg hcond]

theorem fillColumn_val (t : NPArray) (c col : ℕ) (q : ℚ) (c2 r f : ℕ) :
    (fillColumn t c col q).val c2 r f =
      if c2 = c ∧ f = col then q else t.val c2 r f := rfl

theorem assignSlice12_val (a src : NPArray) (c r f : ℕ) :
    (assignSlice12 a src).val c r f =
      if c < 12 then src.val c r f else a.val c r f := rfl

/-- Claim C7: channel 17 of the extended encoding is 1.0 at every rank of the
file column of the en-passant target and 0.0 at every cell of every other file
when an en-passant square exists, and all-0.0 when there is none. -/
theorem encode_extended_ep_channel (b : Board) (r f : ℕ) (hr : r < 8) (hf : f < 8) :
    (∀ ep, b.epSquare = some ep →
      (board_to_tensor_extended b).val 17 r f = if f = square_file ep then 1 else 0) ∧
    (b.epSquare = none → (board_to_tensor_extended b).val 17 r f = 0) := by
  constructor
  · intro ep hep
    simp only [board_to_tensor_extended, hep]
    rw [fillPlane_val_other _ 18 _ 17 r f (by omega), fillColumn_val]
    by_cases hfe : f = square_file ep
    · rw [if_pos ⟨rfl, hfe⟩, if_pos hfe]
    · rw [if_neg (fun hh => hfe hh.2), if_neg hfe,
        ite_fillPlane_val_other _ _ 16 _ 17 r f (by omega),
        ite_fillPlane_val_other _ _ 15 _ 17 r f (by omega),
        ite_fillPlane_val_other _ _ 14 _ 17 r f (by omega),
        ite_fillPlane_val_other _ _ 13 _ 17 r f (by omega),
        ite_fillPlane_val_other _ _ 12 _ 17 r f (by omega),
        assignSlice12_val, if_neg (by omega)]
      rfl
  · intro hep
    simp only [board_to_tensor_extended, hep]
    rw [fillPlane_val_other _ 18 _ 17 r f (by omega),
      ite_fillPlane_val_other _ _ 16 _ 17 r f (by omega),
      ite_fillPlane_val_other _ _ 15 _ 17 r f (by omega),
      ite_fillPlane_val_other _ _ 14 _ 17 r f (by omega),
      ite_fillPlane_val_other _ _ 13 _ 17 r f (by omega),
      ite_fillPlane_val_other _ _ 12 _ 17 r f (by omega),
      assignSlice12_val, if_neg (by omega)]
    rfl

/-! ### Witnesses: each theorem applied at a concrete input -/

theorem decode_encode_roundtrip_witness :
    ∃ B, tensor_to_board (board_to_tensor Board.empty) = .ok B ∧
      ∀ s, s < 64 → B.pieceAt s = Board.empty.pieceAt s :=
  decode_encode_roundtrip Board.empty

theorem flip_involution_witness :
    (zerosArr 12 8 8).channels = 12 ∧ (zerosArr 12 8 8).rows = 8 ∧
      (zerosArr 12 8 8).cols = 8 ∧
      (∃ y z, flip_board_tensor (zerosArr 12 8 8) = .ok y ∧
        flip_board_tensor y = .ok z ∧
        z.channels = (zerosArr 12 8 8).channels ∧ z.rows = (zerosArr 12 8 8).rows ∧
        z.cols = (zerosArr 12 8 8).cols ∧
        ∀ c, c < (zerosArr 12 8 8).channels → ∀ r, r < 8 → ∀ f, f < 8 →
          z.val c r f = (zerosArr 12 8 8).val c r f) :=
  ⟨rfl, rfl, rfl, flip_involution (zerosArr 12 8 8) (Or.inl rfl) rfl rfl⟩

theorem encode_basic_shape_onehot_witness :
    (0:ℕ) < 12 ∧ (0:ℕ) < 8 ∧
      ((board_to_tensor Board.empty).val 0 0 0 = 0 ∨
        (board_to_tensor Board.empty).val 0 0 0 = 1) :=
  ⟨by decide, by decide,
    (encode_basic_shape_onehot Board.empty).2.2.2.1 0 (by decide) 0 (by decide) 0
      (by decide)⟩

theorem flip_extended_channel_map_witness :
    sampleStateArr.channels = 19 ∧ sampleStateArr.rows = 8 ∧ sampleStateArr.cols = 8 ∧
      (∃ y, flip_board_tensor sampleStateArr = .ok y ∧
        ∀ r, r < 8 → ∀ f, f < 8 →
          (y.val 12 r f = 1 - sampleStateArr.val 12 r f) ∧
          (y.val 13 r f = sampleStateArr.val 15 r f) ∧
          (y.val 15 r f = sampleStateArr.val 13 r f) ∧
          (y.val 14 r f = sampleStateArr.val 16 r f) ∧
          (y.val 16 r f = sampleStateArr.val 14 r f) ∧
          (y.val 17 r f = sampleStateArr.val 17 (7 - r) f) ∧
          (y.val 18 r f = sampleStateArr.val 18 r f)) :=
  ⟨rfl, rfl, rfl, flip_extended_channel_map sampleStateArr rfl rfl rfl⟩

theorem decode_multihot_last_wins_witness :
    sampleMultiHot.channels = 12 ∧ sampleMultiHot.rows = 8 ∧ sampleMultiHot.cols = 8 ∧
      (3:ℕ) < 8 ∧ (4:ℕ) < 8 ∧ (9:ℕ) < 12 ∧ (2:ℕ) < 12 ∧ (2:ℕ) ≠ 9 ∧
      cellActive sampleMultiHot 9 3 4 = true ∧
      cellActive sampleMultiHot 2 3 4 = true ∧
      (∀ c3, c3 < 12 → cellActive sampleMultiHot c3 3 4 = true → c3 ≤ 9) ∧
      (∃ B, tensor_to_board sampleMultiHot = .ok B ∧
        B.pieceAt (chess_square 4 3) = channel_to_piece 9) :=
  ⟨rfl, rfl, rfl, by decide, by decide, by decide, by decide, by decide, by decide,
    by decide, by decide,
    decode_multihot_last_wins sampleMultiHot rfl rfl rfl 3 4 (by decide) (by decide)
      9 2 (by decide) (by decide) (by decide) (by decide) (by decide) (by decide)⟩

theorem encode_extended_ep_channel_witness :
    (0:ℕ) < 8 ∧ (4:ℕ) < 8 ∧ sampleEpBoard.epSquare = some 20 ∧
      (board_to_tensor_extended sampleEpBoard).val 17 0 4 =
        if 4 = square_file 20 then 1 else 0 :=
  ⟨by decide, by decide, rfl,
    (encode_extended_ep_channel sampleEpBoard 0 4 (by decide) (by decide)).1 20 rfl⟩

theorem decode_ignores_state_channels_witness :
    (zerosArr 19 8 8).channels = 19 ∧ (zerosArr 19 8 8).rows = 8 ∧
      (zerosArr 19 8 8).cols = 8 ∧ sampleStateArr.channels = 19 ∧
      sampleStateArr.rows = 8 ∧ sampleStateArr.cols = 8 ∧
      (∀ c, c < 12 → ∀ r, r < 8 → ∀ f, f < 8 →
        (zerosArr 19 8 8).val c r f = sampleStateArr.val c r f) ∧
      tensor_to_board (zerosArr 19 8 8) = tensor_to_board sampleStateArr :=
  ⟨rfl, rfl, rfl, rfl, rfl, rfl, by decide,
    decode_ignores_state_channels (zerosArr 19 8 8) sampleStateArr rfl rfl rfl rfl rfl rfl
      (by decide)⟩

theorem flip_channels_13_16_index_error_witness :
    13 ≤ (zerosArr 13 8 8).channels ∧ (zerosArr 13 8 8).channels ≤ 16 ∧
      flip_board_tensor (zerosArr 13 8 8) = .error .indexError :=
  ⟨by decide, by decide,
    flip_channels_13_16_index_error (zerosArr 13 8 8) (by decide) (by decide)⟩

theorem decode_default_game_state_witness :
    tensor_to_board (zerosArr 12 8 8) = .ok Board.empty ∧
      (Board.empty.turn = Color.white ∧ Board.empty.castleWK = false ∧
        Board.empty.castleWQ = false ∧ Board.empty.castleBK = false ∧
        Board.empty.castleBQ = false ∧ Board.empty.epSquare = none ∧
        Board.empty.halfmoveClock = 0) :=
  ⟨rfl, decode_default_game_state (zerosArr 12 8 8) Board.empty rfl⟩
